import Mathlib

/-!
Verification of the MTProto proxy (mtprotoproxy.py) against its
natural-language specification.

Bytes are modelled as `Nat` values (< 256 where it matters), byte strings as
`List Nat`.  The external cryptographic primitives the program imports
(AES block encryption from pycrypto/pyaes, SHA-256/MD5/SHA-1 from hashlib)
are not part of the repository; they are taken as function parameters.
AES-CTR is modelled structurally — xor with the keystream produced by the
abstract block cipher on successive 128-bit counter values — exactly the
construction `create_aes_ctr` delegates to.  CRC32 (`binascii.crc32`) is the
standard reflected CRC-32 and is implemented concretely.
-/

/-! ### Little/big endian byte encodings (int.to_bytes / int.from_bytes) -/

/-- `toLe n v` : the `n` little-endian bytes of `v`, as in
`int.to_bytes(v, n, "little")` (value taken mod 256^n). -/
def toLe : Nat → Nat → List Nat
  | 0, _ => []
  | n + 1, v => v % 256 :: toLe n (v / 256)

/-- `fromLe l` : `int.from_bytes(l, "little")` (unsigned). -/
def fromLe : List Nat → Nat
  | [] => 0
  | b :: t => b + 256 * fromLe t

/-- `fromBe l` : `int.from_bytes(l, "big")` (unsigned). -/
def fromBe (l : List Nat) : Nat :=
  l.foldl (fun acc b => acc * 256 + b) 0

/-- `fromLeSigned l` : `int.from_bytes(l, "little", signed=True)`. -/
def fromLeSigned (l : List Nat) : Int :=
  let v := fromLe l
  if v < 2 ^ (8 * l.length - 1) then (v : Int) else (v : Int) - 2 ^ (8 * l.length)

/-- `toLeSigned n i` : `int.to_bytes(i, n, "little", signed=True)`
(two's complement; the Python call requires `-2^(8n-1) ≤ i < 2^(8n-1)`). -/
def toLeSigned (n : Nat) (i : Int) : List Nat :=
  toLe n (i % (2 ^ (8 * n) : Int)).toNat

/-- `await stream.readexactly n`: split off exactly `n` bytes, or fail
(`IncompleteReadError`) when fewer are available. -/
def takeExact (n : Nat) (l : List Nat) : Option (List Nat × List Nat) :=
  if n ≤ l.length then some (l.take n, l.drop n) else none

/-- Python slice assignment `l[i:i+len(repl)] = repl`. -/
def setRange (l : List Nat) (i : Nat) (repl : List Nat) : List Nat :=
  l.take i ++ repl ++ l.drop (i + repl.length)

/-! ### Constants from the source -/

def SKIP_LEN : Nat := 8
def PREKEY_LEN : Nat := 32
def KEY_LEN : Nat := 32
def IV_LEN : Nat := 16
def HANDSHAKE_LEN : Nat := 64
def MAGIC_VAL_POS : Nat := 56

def MAGIC_VAL_TO_CHECK : List Nat := [0xef, 0xef, 0xef, 0xef]

def CBC_PADDING : Nat := 16
def PADDING_FILLER : List Nat := [0x04, 0x00, 0x00, 0x00]

def MIN_MSG_LEN : Nat := 12
def MAX_MSG_LEN : Nat := 2 ^ 24

def TG_DATACENTERS_V4 : List String :=
  ["149.154.175.50", "149.154.167.51", "149.154.175.100",
   "149.154.167.91", "149.154.171.5"]

def TG_DATACENTERS_V6 : List String :=
  ["2001:b28:f23d:f001::a", "2001:67c:04e8:f002::a", "2001:b28:f23d:f003::a",
   "2001:67c:04e8:f004::a", "2001:b28:f23f:f005::a"]

/-! ### CRC-32 (binascii.crc32): standard reflected CRC-32, poly 0xEDB88320 -/

/-- One bit-round of the reflected CRC-32 update. -/
def crc32Round (x : Nat) : Nat :=
  if x % 2 = 1 then (x / 2) ^^^ 0xEDB88320 else x / 2

/-- Absorb one byte into the CRC state: xor it in, then 8 bit-rounds. -/
def crc32Byte (c b : Nat) : Nat :=
  crc32Round^[8] (c ^^^ b)

/-- Fold a byte string into a CRC state. -/
def crc32Aux (c : Nat) (l : List Nat) : Nat :=
  l.foldl crc32Byte c

/-- `binascii.crc32 l` (initial value 0xFFFFFFFF, final complement). -/
def crc32 (l : List Nat) : Nat :=
  crc32Aux 0xFFFFFFFF l ^^^ 0xFFFFFFFF

/-! ### AES-CTR as `create_aes_ctr` builds it

`Counter.new(128, initial_value=iv)` yields the 128-bit big-endian counter
blocks `iv, iv+1, ...` (mod 2^128); the CTR stream cipher xors data with
the concatenation of the AES encryptions of those blocks.  `aesEnc key ctr`
is the abstract AES block encryption, returning a 16-byte block. -/

/-- Concatenation of `nblocks` encrypted counter blocks. -/
def ctrBlocks (aesEnc : List Nat → Nat → List Nat) (key : List Nat) (iv : Nat)
    (nblocks : Nat) : List Nat :=
  ((List.range nblocks).map (fun i => aesEnc key ((iv + i) % 2 ^ 128))).flatten

/-- First `n` keystream bytes. -/
def ctrKeystream (aesEnc : List Nat → Nat → List Nat) (key : List Nat) (iv : Nat)
    (n : Nat) : List Nat :=
  (ctrBlocks aesEnc key iv ((n + 15) / 16)).take n

/-- CTR encryption = decryption: xor the data with the keystream. -/
def ctrProcess (aesEnc : List Nat → Nat → List Nat) (key : List Nat) (iv : Nat)
    (data : List Nat) : List Nat :=
  List.zipWith (fun a b => a ^^^ b) data (ctrKeystream aesEnc key iv data.length)

/-! ### Basic lemmas about the encodings -/

theorem toLe_length (n v : Nat) : (toLe n v).length = n := by
  induction n generalizing v with
  | zero => rfl
  | succ k ih => simp [toLe, ih]

theorem toLe_bytes_lt (n v : Nat) : ∀ b ∈ toLe n v, b < 256 := by
  induction n generalizing v with
  | zero => simp [toLe]
  | succ k ih =>
    intro b hb
    simp only [toLe, List.mem_cons] at hb
    rcases hb with h | h
    · omega
    · exact ih _ b h

theorem fromLe_toLe (n v : Nat) (h : v < 256 ^ n) : fromLe (toLe n v) = v := by
  induction n generalizing v with
  | zero => simp [toLe, fromLe]; omega
  | succ k ih =>
    have hdiv : v / 256 < 256 ^ k := by
      rw [Nat.div_lt_iff_lt_mul (by omega)]
      calc v < 256 ^ (k + 1) := h
        _ = 256 ^ k * 256 := by ring
    simp [toLe, fromLe, ih _ hdiv]
    omega

theorem fromLe_lt (l : List Nat) (h : ∀ b ∈ l, b < 256) :
    fromLe l < 256 ^ l.length := by
  induction l with
  | nil => simp [fromLe]
  | cons b t ih =>
    have hb : b < 256 := h b (by simp)
    have ht := ih (fun x hx => h x (by simp [hx]))
    simp only [fromLe, List.length_cons]
    calc b + 256 * fromLe t < 256 + 256 * fromLe t := by omega
      _ = 256 * (fromLe t + 1) := by ring
      _ ≤ 256 * 256 ^ t.length := by
          have : fromLe t + 1 ≤ 256 ^ t.length := ht
          exact Nat.mul_le_mul_left _ this
      _ = 256 ^ (t.length + 1) := by ring

theorem toLe4_eq (v : Nat) :
    toLe 4 v = [v % 256, v / 256 % 256, v / 256 / 256 % 256, v / 256 / 256 / 256 % 256] := by
  rfl

theorem fromLeSigned_toLeSigned4 (k : Int) (h1 : -(2 ^ 31) ≤ k) (h2 : k < 2 ^ 31) :
    fromLeSigned (toLeSigned 4 k) = k := by
  have hm : ((2 : Int) ^ (8 * 4)) = 4294967296 := by norm_num
  have hnn : (0 : Int) ≤ k % 4294967296 := Int.emod_nonneg k (by norm_num)
  have hlt : k % 4294967296 < 4294967296 := Int.emod_lt_of_pos k (by norm_num)
  have hdef : k % 4294967296 = k - 4294967296 * (k / 4294967296) := Int.emod_def k _
  have hv : (k % 4294967296).toNat < 4294967296 := by omega
  have hv2 : (k % 4294967296).toNat < 256 ^ 4 := by norm_num at hv ⊢; omega
  unfold toLeSigned fromLeSigned
  rw [hm, fromLe_toLe 4 _ hv2, toLe_length]
  have hcast : (((k % 4294967296).toNat : Int)) = k % 4294967296 := Int.toNat_of_nonneg hnn
  by_cases hk : 0 ≤ k
  · have hke : k % 4294967296 = k := by omega
    have hlt31 : (k % 4294967296).toNat < 2 ^ (8 * 4 - 1) := by
      norm_num
      omega
    rw [if_pos hlt31]
    omega
  · have hke : k % 4294967296 = k + 4294967296 := by omega
    have hge : ¬ (k % 4294967296).toNat < 2 ^ (8 * 4 - 1) := by
      norm_num
      omega
    rw [if_neg hge]
    norm_num
    omega

theorem takeExact_append (a b : List Nat) :
    takeExact a.length (a ++ b) = some (a, b) := by
  simp [takeExact, List.take_left, List.drop_left]

/-! ### CRC-32 lemmas: state stays below 2^32, and the update is injective -/

theorem crc32Round_lt {x : Nat} (h : x < 2 ^ 32) : crc32Round x < 2 ^ 32 := by
  unfold crc32Round
  split
  · have h1 : x / 2 < 2 ^ 31 := by omega
    have h2 : (0xEDB88320 : Nat) < 2 ^ 32 := by norm_num
    exact Nat.xor_lt_two_pow (by omega) h2
  · omega

theorem crc32Round_inj {x y : Nat} (hx : x < 2 ^ 32) (hy : y < 2 ^ 32)
    (h : crc32Round x = crc32Round y) : x = y := by
  have key : ∀ z : Nat, z < 2 ^ 32 → z % 2 = 1 →
      2 ^ 31 ≤ (z / 2) ^^^ 0xEDB88320 := by
    intro z hz _
    have hlt : z / 2 < 2 ^ 31 := by omega
    have hbit : ((z / 2) ^^^ 0xEDB88320).testBit 31 = true := by
      rw [Nat.testBit_xor, Nat.testBit_lt_two_pow hlt]
      decide
    by_contra hcon
    rw [Nat.testBit_lt_two_pow (by omega)] at hbit
    exact Bool.false_ne_true hbit
  unfold crc32Round at h
  by_cases ho1 : x % 2 = 1 <;> by_cases ho2 : y % 2 = 1
  · rw [if_pos ho1, if_pos ho2] at h
    have := Nat.xor_left_inj.mp h
    omega
  · rw [if_pos ho1, if_neg ho2] at h
    have := key x hx ho1
    omega
  · rw [if_neg ho1, if_pos ho2] at h
    have := key y hy ho2
    omega
  · rw [if_neg ho1, if_neg ho2] at h
    omega

theorem crc32Round_iter_lt (n : Nat) {x : Nat} (h : x < 2 ^ 32) :
    crc32Round^[n] x < 2 ^ 32 := by
  induction n generalizing x with
  | zero => simpa using h
  | succ k ih =>
    rw [Function.iterate_succ_apply]
    exact ih (crc32Round_lt h)

theorem crc32Round_iter_inj (n : Nat) {x y : Nat} (hx : x < 2 ^ 32) (hy : y < 2 ^ 32)
    (h : crc32Round^[n] x = crc32Round^[n] y) : x = y := by
  induction n generalizing x y with
  | zero => simpa using h
  | succ k ih =>
    rw [Function.iterate_succ_apply, Function.iterate_succ_apply] at h
    exact crc32Round_inj hx hy (ih (crc32Round_lt hx) (crc32Round_lt hy) h)

theorem crc32Byte_lt {c b : Nat} (hc : c < 2 ^ 32) (hb : b < 2 ^ 32) :
    crc32Byte c b < 2 ^ 32 :=
  crc32Round_iter_lt 8 (Nat.xor_lt_two_pow hc hb)

theorem crc32Byte_inj_state {c1 c2 b : Nat} (h1 : c1 < 2 ^ 32) (h2 : c2 < 2 ^ 32)
    (hb : b < 2 ^ 32) (hne : c1 ≠ c2) : crc32Byte c1 b ≠ crc32Byte c2 b := by
  intro h
  have := crc32Round_iter_inj 8 (Nat.xor_lt_two_pow h1 hb) (Nat.xor_lt_two_pow h2 hb) h
  exact hne (Nat.xor_left_inj.mp this)

theorem crc32Byte_inj_byte {c b1 b2 : Nat} (hc : c < 2 ^ 32) (h1 : b1 < 2 ^ 32)
    (h2 : b2 < 2 ^ 32) (hne : b1 ≠ b2) : crc32Byte c b1 ≠ crc32Byte c b2 := by
  intro h
  have := crc32Round_iter_inj 8 (Nat.xor_lt_two_pow hc h1) (Nat.xor_lt_two_pow hc h2) h
  exact hne (Nat.xor_right_inj.mp this)

theorem crc32Aux_lt {c : Nat} (l : List Nat) (hc : c < 2 ^ 32)
    (hl : ∀ b ∈ l, b < 256) : crc32Aux c l < 2 ^ 32 := by
  induction l generalizing c with
  | nil => simpa [crc32Aux] using hc
  | cons b t ih =>
    have hb : b < 256 := hl b (by simp)
    exact ih (crc32Byte_lt hc (by omega)) (fun x hx => hl x (by simp [hx]))

theorem crc32Aux_append (c : Nat) (a b : List Nat) :
    crc32Aux c (a ++ b) = crc32Aux (crc32Aux c a) b := by
  simp [crc32Aux, List.foldl_append]

theorem crc32Aux_ne (l : List Nat) {c1 c2 : Nat} (h1 : c1 < 2 ^ 32) (h2 : c2 < 2 ^ 32)
    (hne : c1 ≠ c2) (hl : ∀ b ∈ l, b < 256) : crc32Aux c1 l ≠ crc32Aux c2 l := by
  induction l generalizing c1 c2 with
  | nil => simpa [crc32Aux] using hne
  | cons b t ih =>
    have hb : b < 256 := hl b (by simp)
    show crc32Aux (crc32Byte c1 b) t ≠ crc32Aux (crc32Byte c2 b) t
    exact ih (crc32Byte_lt h1 (by omega)) (crc32Byte_lt h2 (by omega))
      (crc32Byte_inj_state h1 h2 (by omega) hne) (fun x hx => hl x (by simp [hx]))

theorem crc32Aux_set_ne (p : List Nat) (i : Nat) {c : Nat} (x : Nat)
    (hc : c < 2 ^ 32) (hp : ∀ b ∈ p, b < 256) (hi : i < p.length) (hx : x < 256)
    (hne : x ≠ p.getD i 0) : crc32Aux c (p.set i x) ≠ crc32Aux c p := by
  induction p generalizing i c with
  | nil => simp at hi
  | cons b t ih =>
    have hb : b < 256 := hp b (by simp)
    cases i with
    | zero =>
      simp only [List.getD_cons_zero] at hne
      show crc32Aux (crc32Byte c x) t ≠ crc32Aux (crc32Byte c b) t
      exact crc32Aux_ne t (crc32Byte_lt hc (by omega)) (crc32Byte_lt hc (by omega))
        (crc32Byte_inj_byte hc (by omega) (by omega) hne)
        (fun y hy => hp y (by simp [hy]))
    | succ j =>
      simp only [List.getD_cons_succ] at hne
      show crc32Aux (crc32Byte c b) (t.set j x) ≠ crc32Aux (crc32Byte c b) t
      exact ih j (crc32Byte_lt hc (by omega))
        (fun y hy => hp y (by simp [hy])) (by simpa using hi) hne

theorem crc32_lt (l : List Nat) (hl : ∀ b ∈ l, b < 256) : crc32 l < 2 ^ 32 := by
  unfold crc32
  exact Nat.xor_lt_two_pow (crc32Aux_lt l (by norm_num) hl) (by norm_num)

/-- Changing one byte of the suffix `p` (keeping its length) changes the CRC. -/
theorem crc32_set_ne (pre p : List Nat) (i x : Nat)
    (hpre : ∀ b ∈ pre, b < 256) (hp : ∀ b ∈ p, b < 256)
    (hi : i < p.length) (hx : x < 256) (hne : x ≠ p.getD i 0) :
    crc32 (pre ++ p.set i x) ≠ crc32 (pre ++ p) := by
  unfold crc32
  intro h
  have h2 := Nat.xor_left_inj.mp h
  rw [crc32Aux_append, crc32Aux_append] at h2
  exact crc32Aux_set_ne p i x (crc32Aux_lt pre (by norm_num) hpre) hp hi hx hne h2

/-- Flipping bit `j` of byte `i` of the suffix `p` changes the CRC. -/
theorem crc32_flip_ne (pre p : List Nat) (i j : Nat)
    (hpre : ∀ b ∈ pre, b < 256) (hp : ∀ b ∈ p, b < 256)
    (hi : i < p.length) (hj : j < 8) :
    crc32 (pre ++ p.set i (p.getD i 0 ^^^ 2 ^ j)) ≠ crc32 (pre ++ p) := by
  have hmem : p.getD i 0 ∈ p := by
    rw [List.getD_eq_getElem p 0 hi]
    exact List.getElem_mem hi
  have hb : p.getD i 0 < 256 := hp _ hmem
  have hjlt : 2 ^ j < 256 := by
    calc 2 ^ j ≤ 2 ^ 7 := Nat.pow_le_pow_right (by omega) (by omega)
      _ < 256 := by norm_num
  refine crc32_set_ne pre p i _ hpre hp hi (Nat.xor_lt_two_pow (n := 8) (by omega) (by omega)) ?_
  intro h
  have : p.getD i 0 ^^^ 2 ^ j = p.getD i 0 ^^^ 0 := by simpa using h
  have := Nat.xor_right_inj.mp this
  exact absurd this (Nat.pos_iff_ne_zero.mp (Nat.pos_pow_of_pos j (by omega)))

/-! ### CTR lemmas -/

theorem zipWith_xor_xor (s : List Nat) : ∀ ks : List Nat, s.length ≤ ks.length →
    List.zipWith (fun a b => a ^^^ b) (List.zipWith (fun a b => a ^^^ b) s ks) ks = s := by
  induction s with
  | nil => intro ks _; simp
  | cons a t ih =>
    intro ks hks
    cases ks with
    | nil => simp at hks
    | cons k kt =>
      simp only [List.zipWith_cons_cons, List.cons.injEq]
      exact ⟨by rw [Nat.xor_assoc, Nat.xor_self, Nat.xor_zero],
             ih kt (by simpa using hks)⟩

theorem ctrBlocks_length {aesEnc : List Nat → Nat → List Nat}
    (h16 : ∀ k c, (aesEnc k c).length = 16) (key : List Nat) (iv n : Nat) :
    (ctrBlocks aesEnc key iv n).length = 16 * n := by
  induction n with
  | zero => simp [ctrBlocks]
  | succ m ih =>
    unfold ctrBlocks at ih ⊢
    rw [List.range_succ, List.map_append, List.flatten_append]
    rw [List.length_append, ih]
    simp [h16]
    ring

theorem ctrKeystream_length {aesEnc : List Nat → Nat → List Nat}
    (h16 : ∀ k c, (aesEnc k c).length = 16) (key : List Nat) (iv n : Nat) :
    (ctrKeystream aesEnc key iv n).length = n := by
  unfold ctrKeystream
  rw [List.length_take, ctrBlocks_length h16]
  have hd := Nat.div_add_mod (n + 15) 16
  have hm : (n + 15) % 16 < 16 := Nat.mod_lt _ (by omega)
  omega

theorem ctrProcess_length {aesEnc : List Nat → Nat → List Nat}
    (h16 : ∀ k c, (aesEnc k c).length = 16) (key : List Nat) (iv : Nat)
    (data : List Nat) : (ctrProcess aesEnc key iv data).length = data.length := by
  unfold ctrProcess
  rw [List.length_zipWith, ctrKeystream_length h16]
  omega

/-- CTR with the same key, IV and starting position is an involution: encrypting
what was decrypted (or vice versa) restores the original byte stream. -/
theorem ctrProcess_ctrProcess {aesEnc : List Nat → Nat → List Nat}
    (h16 : ∀ k c, (aesEnc k c).length = 16) (key : List Nat) (iv : Nat)
    (s : List Nat) : ctrProcess aesEnc key iv (ctrProcess aesEnc key iv s) = s := by
  have hlen := ctrProcess_length h16 key iv s
  unfold ctrProcess at hlen ⊢
  rw [hlen]
  exact zipWith_xor_xor s _ (by rw [ctrKeystream_length h16])

/-! ### CryptoWrappedStreamReader.read (lines 131-142)

The buffer-empty path reads a chunk from the underlying stream; when its
length is not block-aligned the source executes
`readed += self.stream.readexactly(needed_till_full_block)` — the
`readexactly` coroutine is not awaited, so a coroutine object is
concatenated to `bytes`, raising `TypeError` before anything is returned.
`chunk` is the byte string the underlying `read` returned. -/

inductive CryptoReadResult where
  | ok : List Nat → CryptoReadResult
  | typeError : CryptoReadResult
deriving DecidableEq, Repr

def cryptoWrappedRead (decrypt : List Nat → List Nat) (blockSize : Nat)
    (buf : List Nat) (chunk : List Nat) : CryptoReadResult :=
  if buf ≠ [] then .ok buf
  else
    let neededTillFullBlock := (blockSize - chunk.length % blockSize) % blockSize
    if neededTillFullBlock > 0 then .typeError
    else .ok (decrypt chunk)

/-! ### MTProtoFrameStreamReader.read (lines 184-215)

Input is the remaining byte stream; the result carries the returned data,
the updated `seq_no` object attribute, and the unconsumed bytes.  A failed
`readexactly` (not enough bytes) is `none`; the explicit `return b""`
after `feed_eof` is `some` with empty data. -/

structure FrameOut where
  data : List Nat
  seqNo : Int
  rest : List Nat
deriving DecidableEq, Repr

def mtFrameReadBody (seqNo : Int) (msgLenBytes rest1 : List Nat) : Option FrameOut :=
  let msgLen := fromLe msgLenBytes
  if ¬ (MIN_MSG_LEN ≤ msgLen ∧ msgLen ≤ MAX_MSG_LEN) ∨ msgLen % PADDING_FILLER.length ≠ 0 then
    some ⟨[], seqNo, rest1⟩
  else
    match takeExact 4 rest1 with
    | none => none
    | some (msgSeqBytes, rest2) =>
      if fromLeSigned msgSeqBytes ≠ seqNo then some ⟨[], seqNo, rest2⟩
      else
        match takeExact (msgLen - 4 - 4 - 4) rest2 with
        | none => none
        | some (dataBytes, rest3) =>
          match takeExact 4 rest3 with
          | none => none
          | some (checksumBytes, rest4) =>
            if crc32 (msgLenBytes ++ msgSeqBytes ++ dataBytes) ≠ fromLe checksumBytes then
              some ⟨[], seqNo + 1, rest4⟩
            else
              some ⟨dataBytes, seqNo + 1, rest4⟩

def mtFrameRead (seqNo : Int) : List Nat → Option FrameOut
  | a :: b :: c :: d :: rest =>
    if fromLe [a, b, c, d] = 4 then mtFrameRead seqNo rest
    else mtFrameReadBody seqNo [a, b, c, d] rest
  | _ => none

/-! ### MTProtoFrameStreamWriter.write (lines 279-290) -/

/-- `PADDING_FILLER * n`. -/
def fillerCopies (n : Nat) : List Nat :=
  (List.replicate n PADDING_FILLER).flatten

/-- Returns the bytes passed to the underlying stream and the updated
`seq_no`. -/
def mtFrameWrite (seqNo : Int) (msg : List Nat) : List Nat × Int :=
  let lenBytes := toLe 4 (msg.length + 4 + 4 + 4)
  let seqBytes := toLeSigned 4 seqNo
  let msgWithoutChecksum := lenBytes ++ seqBytes ++ msg
  let checksum := toLe 4 (crc32 msgWithoutChecksum)
  let fullMsg := msgWithoutChecksum ++ checksum
  let padding := fillerCopies (((CBC_PADDING - fullMsg.length % CBC_PADDING) % CBC_PADDING) /
    PADDING_FILLER.length)
  (fullMsg ++ padding, seqNo + 1)

/-! ### MTProtoCompactFrameStreamReader.read (lines 225-240) -/

def compactFrameRead : List Nat → Option (List Nat × List Nat)
  | [] => none
  | b0 :: rest1 =>
    let msgLen0 := b0
    let msgLen1 := if msgLen0 ≥ 0x80 then msgLen0 - 0x80 else msgLen0
    if msgLen1 = 0x7f then
      match takeExact 3 rest1 with
      | none => none
      | some (lenBytes, rest2) => takeExact (fromLe lenBytes * 4) rest2
    else
      takeExact (msgLen1 * 4) rest1

/-! ### MTProtoCompactFrameStreamWriter.write (lines 251-268)

The misaligned-length branch executes
`print("BUG: ... with len %d" % len(msg))` — but the parameter is named
`data` and no `msg` is in scope, so the branch raises `NameError` instead
of logging and returning 0. -/

inductive CompactWriteResult where
  | written : List Nat → CompactWriteResult
  | refused : CompactWriteResult
  | nameError : CompactWriteResult
deriving DecidableEq, Repr

def compactFrameWrite (data : List Nat) : CompactWriteResult :=
  let SMALL_PKT_BORDER := 0x7f
  let LARGE_PKT_BORGER := 256 ^ 3
  if data.length % 4 ≠ 0 then .nameError
  else
    let lenDivFour := data.length / 4
    if lenDivFour < SMALL_PKT_BORDER then .written (lenDivFour :: data)
    else if lenDivFour < LARGE_PKT_BORGER then .written (0x7f :: (toLe 3 lenDivFour ++ data))
    else .refused

/-! ### handle_handshake (lines 351-380)

`aesEnc` and `sha256` stand for the external AES block cipher and
`hashlib.sha256(...).digest()`.  Users are iterated in configuration
insertion order; each secret is already in byte form
(`bytes.fromhex(USERS[user])`).  The returned reader/writer wrap the
streams with the listed decryptor/encryptor contexts; the result carries
everything data-like the tuple `(reader, writer, user, dc_idx,
enc_key + enc_iv)` contains. -/

structure HandshakeResult where
  user : String
  dcIdx : Int
  decKey : List Nat
  decIv : List Nat
  encKey : List Nat
  encIv : List Nat
  encKeyIv : List Nat
deriving DecidableEq, Repr

def handle_handshake (aesEnc : List Nat → Nat → List Nat) (sha256 : List Nat → List Nat) :
    List (String × List Nat) → List Nat → Option HandshakeResult
  | [], _ => none
  | (user, secret) :: restUsers, handshake =>
    let decPrekeyAndIv := (handshake.drop SKIP_LEN).take (PREKEY_LEN + IV_LEN)
    let decPrekey := decPrekeyAndIv.take PREKEY_LEN
    let decIv := decPrekeyAndIv.drop PREKEY_LEN
    let decKey := sha256 (decPrekey ++ secret)
    let encPrekeyAndIv := ((handshake.drop SKIP_LEN).take (PREKEY_LEN + IV_LEN)).reverse
    let encPrekey := encPrekeyAndIv.take PREKEY_LEN
    let encIv := encPrekeyAndIv.drop PREKEY_LEN
    let encKey := sha256 (encPrekey ++ secret)
    let decrypted := ctrProcess aesEnc decKey (fromBe decIv) handshake
    let checkVal := (decrypted.drop MAGIC_VAL_POS).take 4
    if checkVal ≠ MAGIC_VAL_TO_CHECK then
      handle_handshake aesEnc sha256 restUsers handshake
    else
      let dcIdx : Int := ((fromLeSigned ((decrypted.drop 60).take 2)).natAbs : Int) - 1
      if dcIdx = 0 then handle_handshake aesEnc sha256 restUsers handshake
      else some ⟨user, dcIdx, decKey, decIv, encKey, encIv, encKey ++ encIv⟩

/-- The decryption `handle_handshake` performs for one candidate secret,
written the way the spec describes it: AES-CTR under key
`SHA-256(H[8:40] || secret)` with big-endian counter `H[40:56]`. -/
def clientDecrypted (aesEnc : List Nat → Nat → List Nat) (sha256 : List Nat → List Nat)
    (secret handshake : List Nat) : List Nat :=
  ctrProcess aesEnc (sha256 ((handshake.drop 8).take 32 ++ secret))
    (fromBe ((handshake.drop 40).take 16)) handshake

/-! ### do_direct_handshake (lines 383-438), deterministic core

`rnd` is the 64-byte nonce produced by the rejection-sampling loop; the
network side is not modelled.  Lines 415-420: overwrite the magic, then —
when a truthy `dec_key_and_iv` was passed — splice its reversal into
bytes 8..56. -/

def direct_handshake_nonce (rnd : List Nat) (decKeyAndIv : Option (List Nat)) : List Nat :=
  let r1 := setRange rnd MAGIC_VAL_POS MAGIC_VAL_TO_CHECK
  match decKeyAndIv with
  | some kiv => if kiv ≠ [] then setRange r1 SKIP_LEN kiv.reverse else r1
  | none => r1

/-- Line 422: `dec_key_and_iv = rnd[SKIP_LEN:SKIP_LEN+KEY_LEN+IV_LEN][::-1]`. -/
def direct_dec_key_and_iv (rnd : List Nat) : List Nat :=
  ((rnd.drop SKIP_LEN).take (KEY_LEN + IV_LEN)).reverse

/-- Line 426: `enc_key_and_iv = rnd[SKIP_LEN:SKIP_LEN+KEY_LEN+IV_LEN]`. -/
def direct_enc_key_and_iv (rnd : List Nat) : List Nat :=
  (rnd.drop SKIP_LEN).take (KEY_LEN + IV_LEN)

/-- Lines 389-396: the datacenter-index range gate of `do_direct_handshake`
(`do_middleproxy_handshake` line 478 applies the same bound to its
five-entry table). -/
def direct_dc_index_ok (preferIpv6 : Bool) (dcIdx : Int) : Bool :=
  if preferIpv6 then decide (0 ≤ dcIdx ∧ dcIdx < (TG_DATACENTERS_V6.length : Int))
  else decide (0 ≤ dcIdx ∧ dcIdx < (TG_DATACENTERS_V4.length : Int))

/-! ### get_middleproxy_aes_key_and_iv (lines 441-459) -/

/-- Python truthiness of an optional byte string: `None` and `b""` are falsy. -/
def pyTruthyBytes : Option (List Nat) → Bool
  | none => false
  | some l => !l.isEmpty

def get_middleproxy_aes_key_and_iv (md5 sha1 : List Nat → List Nat)
    (nonceSrv nonceClt cltTs srvIp cltPort purpose cltIp srvPort
     middleproxySecret : List Nat)
    (cltIpv6 srvIpv6 : Option (List Nat)) : List Nat × List Nat :=
  let s0 := nonceSrv ++ nonceClt ++ cltTs ++ srvIp ++ cltPort ++ purpose ++ cltIp ++ srvPort
  let s1 := s0 ++ middleproxySecret ++ nonceSrv
  let s2 := if pyTruthyBytes cltIpv6 && pyTruthyBytes srvIpv6 then
    s1 ++ cltIpv6.getD [] ++ srvIpv6.getD [] else s1
  let s := s2 ++ nonceClt
  let md5Sum := md5 (s.drop 1)
  let sha1Sum := sha1 s
  (md5Sum.take 12 ++ sha1Sum, md5 (s.drop 2))

/-- Modelled from the spec sentence for claim C3: one single concatenation
`s = nonce_srv || nonce_clt || crypto_ts || srv_ip_reversed || clt_port_le ||
purpose || clt_ip_reversed || srv_port_le || PROXY_SECRET || nonce_srv ||
(clt_ipv6 || srv_ipv6 if both present) || nonce_clt`, with
`key = MD5(s[1:])[0:12] || SHA1(s)` and `iv = MD5(s[2:])`. -/
def middleproxyKeyIvSpec (md5 sha1 : List Nat → List Nat)
    (nonceSrv nonceClt cltTs srvIp cltPort purpose cltIp srvPort
     middleproxySecret : List Nat)
    (cltIpv6 srvIpv6 : Option (List Nat)) : List Nat × List Nat :=
  let s := nonceSrv ++ (nonceClt ++ (cltTs ++ (srvIp ++ (cltPort ++ (purpose ++
    (cltIp ++ (srvPort ++ (middleproxySecret ++ (nonceSrv ++
    ((if pyTruthyBytes cltIpv6 && pyTruthyBytes srvIpv6 then
        cltIpv6.getD [] ++ srvIpv6.getD [] else []) ++ nonceClt))))))))))
  ((md5 (s.drop 1)).take 12 ++ sha1 s, md5 (s.drop 2))

/-! ### handle_handshake unfolding lemmas -/

theorem slice_take48_take32 (l : List Nat) : ((l.drop 8).take 48).take 32 = (l.drop 8).take 32 := by
  rw [List.take_take]
  norm_num

theorem slice_take48_drop32 (l : List Nat) : ((l.drop 8).take 48).drop 32 = (l.drop 40).take 16 := by
  rw [List.drop_take, List.drop_drop]

/-- One iteration of the user loop of `handle_handshake`, with the slices
rewritten into the forms the spec uses. -/
theorem handle_handshake_cons (aesEnc : List Nat → Nat → List Nat)
    (sha256 : List Nat → List Nat) (u : String) (s : List Nat)
    (t : List (String × List Nat)) (H : List Nat) :
    handle_handshake aesEnc sha256 ((u, s) :: t) H =
      (if ((clientDecrypted aesEnc sha256 s H).drop MAGIC_VAL_POS).take 4 ≠ MAGIC_VAL_TO_CHECK then
        handle_handshake aesEnc sha256 t H
      else if (((fromLeSigned (((clientDecrypted aesEnc sha256 s H).drop 60).take 2)).natAbs : Int) - 1) = 0 then
        handle_handshake aesEnc sha256 t H
      else some ⟨u, ((fromLeSigned (((clientDecrypted aesEnc sha256 s H).drop 60).take 2)).natAbs : Int) - 1,
        sha256 ((H.drop 8).take 32 ++ s), (H.drop 40).take 16,
        sha256 (((H.drop 8).take 48).reverse.take 32 ++ s),
        ((H.drop 8).take 48).reverse.drop 32,
        sha256 (((H.drop 8).take 48).reverse.take 32 ++ s) ++
          ((H.drop 8).take 48).reverse.drop 32⟩) := by
  simp only [handle_handshake, clientDecrypted, SKIP_LEN, PREKEY_LEN, IV_LEN]
  norm_num [slice_take48_take32, slice_take48_drop32]

theorem handle_handshake_append (aesEnc : List Nat → Nat → List Nat)
    (sha256 : List Nat → List Nat) (pre l2 : List (String × List Nat)) (H : List Nat)
    (h : handle_handshake aesEnc sha256 pre H = none) :
    handle_handshake aesEnc sha256 (pre ++ l2) H = handle_handshake aesEnc sha256 l2 H := by
  induction pre with
  | nil => rfl
  | cons p t ih =>
    obtain ⟨u0, s0⟩ := p
    rw [handle_handshake_cons] at h
    rw [List.cons_append, handle_handshake_cons]
    split_ifs at h ⊢ with h1 h2
    all_goals exact ih h

theorem handle_handshake_dcIdx_ne_zero (aesEnc : List Nat → Nat → List Nat)
    (sha256 : List Nat → List Nat) (users : List (String × List Nat)) (H : List Nat)
    (r : HandshakeResult) (h : handle_handshake aesEnc sha256 users H = some r) :
    r.dcIdx ≠ 0 := by
  induction users with
  | nil => simp [handle_handshake] at h
  | cons p t ih =>
    obtain ⟨u0, s0⟩ := p
    rw [handle_handshake_cons] at h
    split_ifs at h with h1 h2
    · exact ih h
    · exact ih h
    · injection h with h3
      subst h3
      exact h2

/-! ### Claim C1 -/

/-- C1: for every configured user `u` with 16-byte secret `s` and every
64-byte handshake `H` such that decrypting `H` with AES-CTR under key
`SHA-256(H[8:40] || s)` and big-endian counter `H[40:56]` yields
`EF EF EF EF` at offset 56 and a dc index
`d = |signed_i16_le(decrypted[60:62])| - 1` with `d ∈ {1..4}`,
`handle_handshake` accepts `H`, returning user `u`, dc index `d`, and
`enc_key || enc_iv` with `enc_key = SHA-256(reverse(H[8:56])[0:32] || s)`
and `enc_iv = reverse(H[8:56])[32:48]`; users are tried in configuration
insertion order and the first match wins (all users before `u` reject). -/
theorem c1_handshake_accepts (aesEnc : List Nat → Nat → List Nat)
    (sha256 : List Nat → List Nat) (pre post : List (String × List Nat))
    (u : String) (s H : List Nat) (d : Int)
    (hH : H.length = 64) (hs : s.length = 16)
    (hpre : handle_handshake aesEnc sha256 pre H = none)
    (hmagic : ((clientDecrypted aesEnc sha256 s H).drop 56).take 4 = [0xef, 0xef, 0xef, 0xef])
    (hd : d = ((fromLeSigned (((clientDecrypted aesEnc sha256 s H).drop 60).take 2)).natAbs : Int) - 1)
    (hd1 : 1 ≤ d) (hd4 : d ≤ 4) :
    handle_handshake aesEnc sha256 (pre ++ (u, s) :: post) H =
      some ⟨u, d, sha256 ((H.drop 8).take 32 ++ s), (H.drop 40).take 16,
        sha256 (((H.drop 8).take 48).reverse.take 32 ++ s),
        ((H.drop 8).take 48).reverse.drop 32,
        sha256 (((H.drop 8).take 48).reverse.take 32 ++ s) ++
          ((H.drop 8).take 48).reverse.drop 32⟩ := by
  rw [handle_handshake_append aesEnc sha256 pre _ H hpre, handle_handshake_cons]
  rw [if_neg (by rw [MAGIC_VAL_POS, hmagic]; simp [MAGIC_VAL_TO_CHECK])]
  rw [if_neg (by rw [← hd]; omega)]
  rw [← hd]

/-- C1 witness: a concrete instantiation — one user with the all-zero
secret, a handshake carrying the magic and dc bytes `02 00`, the block
cipher returning zero blocks (so decryption is the identity). -/
theorem c1_handshake_accepts_witness :
    ((clientDecrypted (fun _ _ => List.replicate 16 0) (fun _ => List.replicate 32 0)
        (List.replicate 16 0)
        (List.replicate 56 0 ++ [0xef, 0xef, 0xef, 0xef, 2, 0, 0, 0])).drop 56).take 4 =
      [0xef, 0xef, 0xef, 0xef] ∧
    handle_handshake (fun _ _ => List.replicate 16 0) (fun _ => List.replicate 32 0)
      [("alice", List.replicate 16 0)]
      (List.replicate 56 0 ++ [0xef, 0xef, 0xef, 0xef, 2, 0, 0, 0]) =
      some ⟨"alice", 1, List.replicate 32 0, List.replicate 16 0, List.replicate 32 0,
        List.replicate 16 0, List.replicate 32 0 ++ List.replicate 16 0⟩ :=
  ⟨by decide, by
    exact c1_handshake_accepts (fun _ _ => List.replicate 16 0)
      (fun _ => List.replicate 32 0) [] [] "alice" (List.replicate 16 0)
      (List.replicate 56 0 ++ [0xef, 0xef, 0xef, 0xef, 2, 0, 0, 0]) 1
      (by decide) (by decide) rfl (by decide) (by decide) (by decide) (by decide)⟩

/-! ### Claim C4 -/

/-- C4 counterexample: `handle_handshake` itself does not confine the dc
index to `[1, len(DC_LIST)-1]`.  With the zero-keystream block cipher and a
handshake whose decryption carries the magic and `00 00` at offset 60,
`abs(0) - 1 = -1` passes the `dc_idx == 0` test and the handshake is
accepted with dc index `-1`, outside `[1, 4]`. -/
theorem c4_dc_range_counterexample :
    (handle_handshake (fun _ _ => List.replicate 16 0) (fun _ => List.replicate 32 0)
        [("alice", List.replicate 16 0)]
        (List.replicate 56 0 ++ [0xef, 0xef, 0xef, 0xef, 0, 0, 0, 0])).map
      (fun r => r.dcIdx) = some (-1) ∧ ¬ (1 : Int) ≤ -1 := by
  constructor
  · decide
  · decide

/-- C4 (amended): `handle_handshake` alone only guarantees a nonzero dc
index (it can return `-1` or values `≥ len(DC_LIST)`); an accepted
*session* additionally passes the `0 ≤ dc_idx < len(...)` gate of
`do_direct_handshake` (lines 389-396), and the two checks combined confine
the dc index of every accepted session to `[1, len(DC_LIST)-1] = [1, 4]`. -/
theorem c4_dc_range_amended (aesEnc : List Nat → Nat → List Nat)
    (sha256 : List Nat → List Nat) (users : List (String × List Nat)) (H : List Nat)
    (preferIpv6 : Bool) (r : HandshakeResult)
    (haccept : handle_handshake aesEnc sha256 users H = some r)
    (hgate : direct_dc_index_ok preferIpv6 r.dcIdx = true) :
    1 ≤ r.dcIdx ∧ r.dcIdx ≤ 4 := by
  have hne := handle_handshake_dcIdx_ne_zero aesEnc sha256 users H r haccept
  unfold direct_dc_index_ok at hgate
  rcases preferIpv6 with _ | _ <;>
    simp only [if_true, if_false, Bool.false_eq_true, decide_eq_true_eq,
      TG_DATACENTERS_V4, TG_DATACENTERS_V6, List.length_cons, List.length_nil] at hgate <;>
    omega

/-- C4 witness: the concrete accepted handshake of the C1 witness, dc
index 1, passes the direct-handshake gate and lands in `[1, 4]`. -/
theorem c4_dc_range_amended_witness :
    direct_dc_index_ok false (1 : Int) = true ∧ (1 : Int) ≤ 1 ∧ (1 : Int) ≤ 4 := by
  refine ⟨by decide, ?_⟩
  exact c4_dc_range_amended (fun _ _ => List.replicate 16 0) (fun _ => List.replicate 32 0)
    [("alice", List.replicate 16 0)]
    (List.replicate 56 0 ++ [0xef, 0xef, 0xef, 0xef, 2, 0, 0, 0]) false
    ⟨"alice", 1, List.replicate 32 0, List.replicate 16 0, List.replicate 32 0,
      List.replicate 16 0, List.replicate 32 0 ++ List.replicate 16 0⟩
    (by decide) (by decide)

/-! ### Claim C2 -/

/-- C2: when `handle_handshake`'s `enc_key || enc_iv` is passed to
`do_direct_handshake` as `dec_key_and_iv`, the synthesized nonce satisfies
`NONCE[8:56] = reverse(client_enc_key || client_enc_iv)`, so the
upstream-side decryptor (`rnd[8:56][::-1]`, line 422) is constructed with
exactly the client-side encryptor's AES-CTR key and IV; and since CTR with
equal key/IV/state is an involution, forwarding datacenter bytes verbatim
(the identity decryptor/encryptor substitution of `handle_client`,
lines 587-597) coincides with decrypting under the upstream key and
re-encrypting under the client key for the whole stream. -/
theorem c2_fast_mode_key_reuse (aesEnc : List Nat → Nat → List Nat)
    (rnd ek eiv stream r : List Nat)
    (h16 : ∀ k c, (aesEnc k c).length = 16)
    (hrnd : rnd.length = 64) (hek : ek.length = 32) (heiv : eiv.length = 16)
    (hr : r = direct_handshake_nonce rnd (some (ek ++ eiv))) :
    (r.drop 8).take 48 = (ek ++ eiv).reverse ∧
    direct_dec_key_and_iv r = ek ++ eiv ∧
    (direct_dec_key_and_iv r).take 32 = ek ∧
    (direct_dec_key_and_iv r).drop 32 = eiv ∧
    ctrProcess aesEnc ek (fromBe eiv) (ctrProcess aesEnc ek (fromBe eiv) stream) = stream := by
  have hkiv : (ek ++ eiv).length = 48 := by
    rw [List.length_append, hek, heiv]
  have hne : (ek ++ eiv) ≠ [] := by
    intro hcon
    rw [hcon] at hkiv
    simp at hkiv
  have hrev : (ek ++ eiv).reverse.length = 48 := by
    rw [List.length_reverse, hkiv]
  have hr1len : (setRange rnd MAGIC_VAL_POS MAGIC_VAL_TO_CHECK).length = 64 := by
    unfold setRange
    simp [MAGIC_VAL_TO_CHECK, MAGIC_VAL_POS, hrnd]
  have hrdef : r = setRange (setRange rnd MAGIC_VAL_POS MAGIC_VAL_TO_CHECK) SKIP_LEN
      (ek ++ eiv).reverse := by
    rw [hr]
    simp [direct_handshake_nonce, hne]
  have htk8 : ((setRange rnd MAGIC_VAL_POS MAGIC_VAL_TO_CHECK).take 8).length = 8 := by
    rw [List.length_take, hr1len]
    omega
  have hmain : (r.drop 8).take 48 = (ek ++ eiv).reverse := by
    rw [hrdef]
    generalize hgen : setRange rnd MAGIC_VAL_POS MAGIC_VAL_TO_CHECK = r1 at htk8
    show ((r1.take 8 ++ (ek ++ eiv).reverse ++
      r1.drop (8 + (ek ++ eiv).reverse.length)).drop 8).take 48 = (ek ++ eiv).reverse
    rw [List.append_assoc, List.drop_left' htk8, List.take_left' hrev]
  refine ⟨hmain, ?_, ?_, ?_, ctrProcess_ctrProcess h16 ek (fromBe eiv) stream⟩
  · show ((r.drop 8).take 48).reverse = ek ++ eiv
    rw [hmain, List.reverse_reverse]
  · show (((r.drop 8).take 48).reverse).take 32 = ek
    rw [hmain, List.reverse_reverse, List.take_left' hek]
  · show (((r.drop 8).take 48).reverse).drop 32 = eiv
    rw [hmain, List.reverse_reverse, List.drop_left' hek]

/-- C2 witness: concrete nonce, client keys and stream; the zero-block
cipher instantiates the abstract AES. -/
theorem c2_fast_mode_key_reuse_witness :
    (List.replicate 64 1 : List Nat).length = 64 ∧
    (((direct_handshake_nonce (List.replicate 64 1)
        (some (List.replicate 32 2 ++ List.replicate 16 3))).drop 8).take 48 =
      (List.replicate 32 2 ++ List.replicate 16 3).reverse ∧
    direct_dec_key_and_iv (direct_handshake_nonce (List.replicate 64 1)
        (some (List.replicate 32 2 ++ List.replicate 16 3))) =
      List.replicate 32 2 ++ List.replicate 16 3 ∧
    (direct_dec_key_and_iv (direct_handshake_nonce (List.replicate 64 1)
        (some (List.replicate 32 2 ++ List.replicate 16 3)))).take 32 =
      List.replicate 32 2 ∧
    (direct_dec_key_and_iv (direct_handshake_nonce (List.replicate 64 1)
        (some (List.replicate 32 2 ++ List.replicate 16 3)))).drop 32 =
      List.replicate 16 3 ∧
    ctrProcess (fun _ _ => List.replicate 16 0) (List.replicate 32 2)
      (fromBe (List.replicate 16 3))
      (ctrProcess (fun _ _ => List.replicate 16 0) (List.replicate 32 2)
        (fromBe (List.replicate 16 3)) [9, 8, 7]) = [9, 8, 7]) :=
  ⟨by decide, by
    exact c2_fast_mode_key_reuse (fun _ _ => List.replicate 16 0)
      (List.replicate 64 1) (List.replicate 32 2) (List.replicate 16 3) [9, 8, 7]
      (direct_handshake_nonce (List.replicate 64 1)
        (some (List.replicate 32 2 ++ List.replicate 16 3)))
      (fun _ _ => List.length_replicate 16 0) (by decide) (by decide) (by decide) rfl⟩

/-! ### Claim C3 -/

/-- C3: for every choice of nonces, timestamp, IP/port byte strings,
purpose and 256-byte secret, `get_middleproxy_aes_key_and_iv` computes the
key and IV from the single concatenation
`s = nonce_srv || nonce_clt || crypto_ts || srv_ip_reversed || clt_port_le ||
purpose || clt_ip_reversed || srv_port_le || PROXY_SECRET || nonce_srv ||
(clt_ipv6 || srv_ipv6 if both present) || nonce_clt` as
`key = MD5(s[1:])[0:12] || SHA1(s)` (32 bytes) and `iv = MD5(s[2:])`
(16 bytes), for every purpose, `"CLIENT"` and `"SERVER"` included. -/
theorem c3_middleproxy_key_derivation (md5 sha1 : List Nat → List Nat)
    (nonceSrv nonceClt cltTs srvIp cltPort purpose cltIp srvPort
     middleproxySecret : List Nat) (cltIpv6 srvIpv6 : Option (List Nat))
    (hmd5 : ∀ x, (md5 x).length = 16) (hsha1 : ∀ x, (sha1 x).length = 20) :
    get_middleproxy_aes_key_and_iv md5 sha1 nonceSrv nonceClt cltTs srvIp cltPort
        purpose cltIp srvPort middleproxySecret cltIpv6 srvIpv6 =
      middleproxyKeyIvSpec md5 sha1 nonceSrv nonceClt cltTs srvIp cltPort
        purpose cltIp srvPort middleproxySecret cltIpv6 srvIpv6 ∧
    (get_middleproxy_aes_key_and_iv md5 sha1 nonceSrv nonceClt cltTs srvIp cltPort
        purpose cltIp srvPort middleproxySecret cltIpv6 srvIpv6).1.length = 32 ∧
    (get_middleproxy_aes_key_and_iv md5 sha1 nonceSrv nonceClt cltTs srvIp cltPort
        purpose cltIp srvPort middleproxySecret cltIpv6 srvIpv6).2.length = 16 := by
  refine ⟨?_, ?_, ?_⟩
  · unfold get_middleproxy_aes_key_and_iv middleproxyKeyIvSpec
    by_cases hc : (pyTruthyBytes cltIpv6 && pyTruthyBytes srvIpv6) = true
    · simp only [if_pos hc, List.append_assoc]
    · simp only [if_neg hc, List.append_assoc, List.nil_append]
  · unfold get_middleproxy_aes_key_and_iv
    simp only [List.length_append, List.length_take, hmd5, hsha1]
    omega
  · unfold get_middleproxy_aes_key_and_iv
    simp only [hmd5]

/-- C3 witness: concrete byte strings (with the IPv6 fields absent, matching
the call sites at lines 526-534) and concrete 16- and 20-byte hash stubs. -/
theorem c3_middleproxy_key_derivation_witness :
    get_middleproxy_aes_key_and_iv (fun _ => List.replicate 16 7)
        (fun _ => List.replicate 20 9) [1] [2] [3] [4] [5] [6] [10] [11]
        (List.replicate 256 0) none none =
      middleproxyKeyIvSpec (fun _ => List.replicate 16 7)
        (fun _ => List.replicate 20 9) [1] [2] [3] [4] [5] [6] [10] [11]
        (List.replicate 256 0) none none ∧
    (get_middleproxy_aes_key_and_iv (fun _ => List.replicate 16 7)
        (fun _ => List.replicate 20 9) [1] [2] [3] [4] [5] [6] [10] [11]
        (List.replicate 256 0) none none).1.length = 32 ∧
    (get_middleproxy_aes_key_and_iv (fun _ => List.replicate 16 7)
        (fun _ => List.replicate 20 9) [1] [2] [3] [4] [5] [6] [10] [11]
        (List.replicate 256 0) none none).2.length = 16 := by
  exact c3_middleproxy_key_derivation (fun _ => List.replicate 16 7)
    (fun _ => List.replicate 20 9) [1] [2] [3] [4] [5] [6] [10] [11]
    (List.replicate 256 0) none none
    (fun _ => List.length_replicate 16 7) (fun _ => List.length_replicate 20 9)

/-! ### Claim C8 -/

/-- C8 (code bug): with an empty internal buffer and block size 16, an
underlying read returning a non-block-aligned chunk (here one byte) makes
`CryptoWrappedStreamReader.read` hit line 141, where
`readed += self.stream.readexactly(...)` lacks an `await`: the coroutine
object is concatenated to `bytes` and the call raises `TypeError` instead
of reading `(-n mod B)` further bytes and returning the decrypted block. -/
theorem c8_crypto_read_missing_await :
    cryptoWrappedRead (fun l => l) 16 [] [0] = .typeError ∧
    cryptoWrappedRead (fun l => l) 16 [] [0, 1, 2, 3, 4, 5, 6, 7, 8, 9, 10, 11, 12, 13, 14, 15] =
      .ok [0, 1, 2, 3, 4, 5, 6, 7, 8, 9, 10, 11, 12, 13, 14, 15] := by
  constructor
  · rfl
  · rfl

/-! ### Claim C9 -/

/-- C9 (code bug): on a payload whose length is not a multiple of 4 the
abridged writer hits line 256, `print("BUG: ..." % len(msg))`, which
references the undefined name `msg` (the parameter is `data`) and raises
`NameError` instead of logging and returning 0; the oversized branch
(`len/4 ≥ 2^24`) does log and refuse as the claim says. -/
theorem c9_compact_write_name_error :
    compactFrameWrite [0] = .nameError ∧
    compactFrameWrite (List.replicate (2 ^ 26) 0) = .refused := by
  constructor
  · rfl
  · unfold compactFrameWrite
    rw [if_neg (by simp only [List.length_replicate]; norm_num),
      if_neg (by simp only [List.length_replicate]; norm_num),
      if_neg (by simp only [List.length_replicate]; norm_num)]

/-! ### Claims C10 and C7 -/

theorem takeExact_append_of_length (a b : List Nat) (n : Nat) (h : a.length = n) :
    takeExact n (a ++ b) = some (a, b) :=
  h ▸ takeExact_append a b

/-- C10: the abridged reader subtracts `0x80` from any first length byte
`L ≥ 0x80` before interpreting it: a frame beginning with
`L ∈ [0x80, 0xfe]` carries a `(L - 0x80) * 4` byte payload, and the byte
`0xff` (not only `0x7f`) selects the extended 3-byte little-endian length
form; the high bit is discarded silently, with no error and no `L*4`
length. -/
theorem c10_compact_reader_high_bit (L : Nat) (data rest l3 data2 rest2 : List Nat)
    (hL1 : 0x80 ≤ L) (hL2 : L ≤ 0xfe) (hdata : data.length = (L - 0x80) * 4)
    (hl3 : l3.length = 3) (hdata2 : data2.length = fromLe l3 * 4) :
    compactFrameRead (L :: (data ++ rest)) = some (data, rest) ∧
    compactFrameRead (0xff :: (l3 ++ (data2 ++ rest2))) = some (data2, rest2) := by
  constructor
  · simp only [compactFrameRead]
    have hms : (if L ≥ 0x80 then L - 0x80 else L) = L - 0x80 := if_pos hL1
    rw [hms, if_neg (show ¬ (L - 0x80 = 0x7f) by omega)]
    exact takeExact_append_of_length data rest _ hdata
  · have hred : compactFrameRead (0xff :: (l3 ++ (data2 ++ rest2))) =
        (match takeExact 3 (l3 ++ (data2 ++ rest2)) with
         | none => none
         | some (lenBytes, r2) => takeExact (fromLe lenBytes * 4) r2) := rfl
    rw [hred, takeExact_append_of_length l3 (data2 ++ rest2) 3 hl3]
    exact takeExact_append_of_length data2 rest2 _ hdata2

/-- C10 witness: length byte `0x81` carries a 4-byte payload, and `0xff`
followed by the 3-byte length `02 00 00` carries an 8-byte payload. -/
theorem c10_compact_reader_high_bit_witness :
    compactFrameRead (0x81 :: ([1, 2, 3, 4] ++ [])) = some ([1, 2, 3, 4], []) ∧
    compactFrameRead (0xff :: ([2, 0, 0] ++ (List.replicate 8 0 ++ [7]))) =
      some (List.replicate 8 0, [7]) :=
  c10_compact_reader_high_bit 0x81 [1, 2, 3, 4] [] [2, 0, 0] (List.replicate 8 0) [7]
    (by decide) (by decide) (by decide) (by decide) (by decide)

/-- C7: every payload `p` with `|p| % 4 = 0` and `|p|/4 < 2^24` survives the
abridged writer-then-reader roundtrip: the writer emits one length byte
`|p|/4` when that is `< 0x7f`, else `0x7f` followed by `|p|/4` as three
little-endian bytes, and the reader returns exactly `p`. -/
theorem c7_compact_roundtrip (p rest : List Nat)
    (h4 : p.length % 4 = 0) (hlt : p.length / 4 < 2 ^ 24) :
    ∃ w, compactFrameWrite p = .written w ∧
      compactFrameRead (w ++ rest) = some (p, rest) := by
  have hmul : p.length / 4 * 4 = p.length := by omega
  by_cases hsmall : p.length / 4 < 0x7f
  · refine ⟨p.length / 4 :: p, ?_, ?_⟩
    · unfold compactFrameWrite
      rw [if_neg (show ¬ (p.length % 4 ≠ 0) by omega), if_pos hsmall]
    · rw [List.cons_append]
      simp only [compactFrameRead]
      have hms : (if p.length / 4 ≥ 0x80 then p.length / 4 - 0x80 else p.length / 4) =
          p.length / 4 := if_neg (by omega)
      rw [hms, if_neg (show ¬ (p.length / 4 = 0x7f) by omega)]
      exact takeExact_append_of_length p rest _ hmul.symm
  · refine ⟨0x7f :: (toLe 3 (p.length / 4) ++ p), ?_, ?_⟩
    · unfold compactFrameWrite
      rw [if_neg (show ¬ (p.length % 4 ≠ 0) by omega), if_neg hsmall,
        if_pos (show p.length / 4 < 256 ^ 3 by norm_num at hlt ⊢; omega)]
    · rw [List.cons_append, List.append_assoc]
      have hred : compactFrameRead (0x7f :: (toLe 3 (p.length / 4) ++ (p ++ rest))) =
          (match takeExact 3 (toLe 3 (p.length / 4) ++ (p ++ rest)) with
           | none => none
           | some (lenBytes, r2) => takeExact (fromLe lenBytes * 4) r2) := rfl
      rw [hred, takeExact_append_of_length (toLe 3 (p.length / 4)) (p ++ rest) 3
        (toLe_length 3 _)]
      show takeExact (fromLe (toLe 3 (p.length / 4)) * 4) (p ++ rest) = some (p, rest)
      rw [fromLe_toLe 3 _ (show p.length / 4 < 256 ^ 3 by norm_num at hlt ⊢; omega)]
      exact takeExact_append_of_length p rest _ hmul.symm

/-- C7 witness: the 4-byte payload `[1, 2, 3, 4]` roundtrips with trailing
bytes left in the stream. -/
theorem c7_compact_roundtrip_witness :
    (List.length [1, 2, 3, 4] % 4 = 0) ∧
    ∃ w, compactFrameWrite [1, 2, 3, 4] = .written w ∧
      compactFrameRead (w ++ [9]) = some ([1, 2, 3, 4], [9]) :=
  ⟨by decide, c7_compact_roundtrip [1, 2, 3, 4] [9] (by decide) (by decide)⟩

/-! ### Intermediate-frame lemmas (for C5 and C6) -/

theorem toLeSigned_length (n : Nat) (i : Int) : (toLeSigned n i).length = n :=
  toLe_length n _

theorem fillerCopies_succ (n : Nat) :
    fillerCopies (n + 1) = PADDING_FILLER ++ fillerCopies n := by
  simp [fillerCopies, List.replicate_succ]

theorem fillerCopies_length (n : Nat) : (fillerCopies n).length = 4 * n := by
  induction n with
  | zero => rfl
  | succ m ih =>
    rw [fillerCopies_succ, List.length_append, ih]
    simp [PADDING_FILLER]
    omega

/-- A `04 00 00 00` padding word at the head of the stream is skipped. -/
theorem mtFrameRead_filler (k : Int) (t : List Nat) :
    mtFrameRead k (PADDING_FILLER ++ t) = mtFrameRead k t := rfl

theorem mtFrameRead_skip (k : Int) (m : Nat) (t : List Nat) :
    mtFrameRead k (fillerCopies m ++ t) = mtFrameRead k t := by
  induction m with
  | zero => rfl
  | succ n ih =>
    rw [fillerCopies_succ, List.append_assoc, mtFrameRead_filler, ih]

/-- Entering the frame body after the four length bytes (no skip since the
length value is not 4). -/
theorem mtFrameRead_toLe4 (k : Int) (L : Nat) (tail : List Nat)
    (h4 : fromLe (toLe 4 L) ≠ 4) :
    mtFrameRead k (toLe 4 L ++ tail) = mtFrameReadBody k (toLe 4 L) tail := by
  rw [toLe4_eq] at h4 ⊢
  show mtFrameRead k (L % 256 :: L / 256 % 256 :: L / 256 / 256 % 256 ::
    L / 256 / 256 / 256 % 256 :: tail) = _
  simp only [mtFrameRead]
  rw [if_neg h4]

/-- The accepting run of the frame body: all checks pass and the payload is
returned with the sequence counter advanced. -/
theorem mtFrameReadBody_eval (k : Int) (lb sB p cB rest : List Nat)
    (hlen : fromLe lb = p.length + 12)
    (hmax : p.length + 12 ≤ 2 ^ 24) (h4 : p.length % 4 = 0)
    (hsB : sB.length = 4) (hseq : fromLeSigned sB = k) (hcB : cB.length = 4)
    (hck : fromLe cB = crc32 (lb ++ sB ++ p)) :
    mtFrameReadBody k lb (sB ++ (p ++ (cB ++ rest))) = some ⟨p, k + 1, rest⟩ := by
  unfold mtFrameReadBody
  rw [hlen]
  rw [if_neg (show ¬ (¬(MIN_MSG_LEN ≤ p.length + 12 ∧ p.length + 12 ≤ MAX_MSG_LEN) ∨
      (p.length + 12) % PADDING_FILLER.length ≠ 0) by
    simp only [MIN_MSG_LEN, MAX_MSG_LEN, PADDING_FILLER, List.length_cons,
      List.length_nil, not_or, not_not, ne_eq]
    norm_num
    omega)]
  simp only [takeExact_append_of_length sB (p ++ (cB ++ rest)) 4 hsB]
  rw [hseq]
  rw [if_neg (show ¬ (k ≠ k) by simp)]
  rw [show p.length + 12 - 4 - 4 - 4 = p.length from by omega]
  simp only [takeExact_append]
  simp only [takeExact_append_of_length cB rest 4 hcB]
  rw [hck]
  rw [if_neg (show ¬ (crc32 (lb ++ sB ++ p) ≠ crc32 (lb ++ sB ++ p)) by simp)]

/-- The rejecting runs of the reader: a bad length field, a sequence
mismatch, or a checksum mismatch each yield the empty result. -/
theorem mtFrameRead_reject (k : Int) (L : Nat) (sB p cB rest : List Nat)
    (hL : L < 2 ^ 32) (hL4 : L ≠ 4)
    (hsB : sB.length = 4) (hp : p.length = L - 12) (hcB : cB.length = 4)
    (hbad : ¬(MIN_MSG_LEN ≤ L ∧ L ≤ MAX_MSG_LEN) ∨ L % 4 ≠ 0 ∨ fromLeSigned sB ≠ k ∨
      fromLe cB ≠ crc32 (toLe 4 L ++ sB ++ p)) :
    ∃ s tail, mtFrameRead k (toLe 4 L ++ (sB ++ (p ++ (cB ++ rest)))) =
      some ⟨[], s, tail⟩ := by
  have hfl : fromLe (toLe 4 L) = L := fromLe_toLe 4 L (by norm_num at hL ⊢; omega)
  rw [mtFrameRead_toLe4 k L _ (by rw [hfl]; exact hL4)]
  unfold mtFrameReadBody
  rw [hfl]
  by_cases hlen : ¬(MIN_MSG_LEN ≤ L ∧ L ≤ MAX_MSG_LEN) ∨ L % PADDING_FILLER.length ≠ 0
  · rw [if_pos hlen]
    exact ⟨k, _, rfl⟩
  · rw [if_neg hlen]
    have hgood : 12 ≤ L ∧ L ≤ 2 ^ 24 ∧ L % 4 = 0 := by
      push_neg at hlen
      simp only [MIN_MSG_LEN, MAX_MSG_LEN, PADDING_FILLER, List.length_cons,
        List.length_nil] at hlen
      omega
    simp only [takeExact_append_of_length sB (p ++ (cB ++ rest)) 4 hsB]
    by_cases hseq : fromLeSigned sB ≠ k
    · rw [if_pos hseq]
      exact ⟨k, _, rfl⟩
    · rw [if_neg hseq]
      have hck : fromLe cB ≠ crc32 (toLe 4 L ++ sB ++ p) := by
        simp only [MIN_MSG_LEN, MAX_MSG_LEN] at hbad
        rcases hbad with h | h | h | h
        · exact absurd ⟨hgood.1, hgood.2.1⟩ h
        · exact absurd hgood.2.2 (by simpa using h)
        · exact absurd h hseq
        · exact h
      rw [show L - 4 - 4 - 4 = p.length from by omega]
      simp only [takeExact_append]
      simp only [takeExact_append_of_length cB rest 4 hcB]
      rw [if_pos (Ne.symm hck)]
      exact ⟨k + 1, rest, rfl⟩

/-- The bytes and updated sequence number `MTProtoFrameStreamWriter.write`
produces, spelled out. -/
theorem mtFrameWrite_bytes (k : Int) (p : List Nat) :
    mtFrameWrite k p =
      ((toLe 4 (p.length + 12) ++ toLeSigned 4 k ++ p ++
        toLe 4 (crc32 (toLe 4 (p.length + 12) ++ toLeSigned 4 k ++ p))) ++
        fillerCopies (((16 - (p.length + 12) % 16) % 16) / 4), k + 1) := by
  have hfull : ((toLe 4 (p.length + 12) ++ toLeSigned 4 k ++ p) ++
      toLe 4 (crc32 (toLe 4 (p.length + 12) ++ toLeSigned 4 k ++ p))).length =
      p.length + 12 := by
    simp [toLe_length, toLeSigned_length, List.length_append]
    omega
  simp only [mtFrameWrite]
  rw [show p.length + 4 + 4 + 4 = p.length + 12 from by omega]
  rw [hfull, show PADDING_FILLER.length = 4 from rfl, show CBC_PADDING = 16 from rfl]

theorem toLeSigned_bytes_lt (n : Nat) (i : Int) : ∀ b ∈ toLeSigned n i, b < 256 :=
  toLe_bytes_lt n _

theorem frame_header_payload_bytes_lt (k : Int) (p : List Nat) (L : Nat)
    (hbytes : ∀ b ∈ p, b < 256) :
    ∀ b ∈ toLe 4 L ++ toLeSigned 4 k ++ p, b < 256 := by
  intro b hb
  rcases List.mem_append.mp hb with hb1 | hb1
  · rcases List.mem_append.mp hb1 with hb2 | hb2
    · exact toLe_bytes_lt 4 L b hb2
    · exact toLeSigned_bytes_lt 4 k b hb2
  · exact hbytes b hb1

/-! ### Claim C6 -/

/-- C6: for every byte payload `p` with `|p|` a multiple of 4 and
`12 + |p| ≤ 2^24`, writing `p` at sequence `k` emits
`length(=|p|+12) || seq || p || crc32-le` right-padded with whole copies of
`04 00 00 00` to a multiple of 16, and reading it back (expecting sequence
`k`, with `m` interleaved padding words of length field 4 skipped first)
returns exactly `p` and advances the sequence to `k + 1`. -/
theorem c6_frame_roundtrip (k : Int) (p : List Nat) (m : Nat) (rest : List Nat)
    (hbytes : ∀ b ∈ p, b < 256) (h4 : p.length % 4 = 0) (hmax : p.length + 12 ≤ 2 ^ 24)
    (hk1 : -(2 ^ 31) ≤ k) (hk2 : k < 2 ^ 31) :
    (mtFrameWrite k p).1 =
      (toLe 4 (p.length + 12) ++ toLeSigned 4 k ++ p ++
        toLe 4 (crc32 (toLe 4 (p.length + 12) ++ toLeSigned 4 k ++ p))) ++
        fillerCopies (((16 - (p.length + 12) % 16) % 16) / 4) ∧
    (mtFrameWrite k p).2 = k + 1 ∧
    (mtFrameWrite k p).1.length % 16 = 0 ∧
    ∃ tail, mtFrameRead k (fillerCopies m ++ ((mtFrameWrite k p).1 ++ rest)) =
      some ⟨p, k + 1, tail⟩ := by
  have hw := mtFrameWrite_bytes k p
  have hcrclt : crc32 (toLe 4 (p.length + 12) ++ toLeSigned 4 k ++ p) < 256 ^ 4 := by
    have := crc32_lt _ (frame_header_payload_bytes_lt k p (p.length + 12) hbytes)
    norm_num at this ⊢
    omega
  refine ⟨by rw [hw], by rw [hw], ?_, ?_⟩
  · rw [hw]
    simp only [List.length_append, toLe_length, toLeSigned_length, fillerCopies_length]
    omega
  · rw [mtFrameRead_skip]
    simp only [hw, List.append_assoc]
    rw [mtFrameRead_toLe4 k (p.length + 12) _
      (by rw [fromLe_toLe 4 _ (by norm_num; omega)]; omega)]
    exact ⟨_, mtFrameReadBody_eval k _ _ p _ _
      (fromLe_toLe 4 _ (by norm_num; omega)) hmax h4 (toLeSigned_length 4 k)
      (fromLeSigned_toLeSigned4 k hk1 hk2) (toLe_length 4 _)
      (fromLe_toLe 4 _ hcrclt)⟩

/-- C6 witness: payload `01 02 03 04` written at the writer start sequence
`-2`, one interleaved padding word, trailing byte left over. -/
theorem c6_frame_roundtrip_witness :
    ((List.length [1, 2, 3, 4]) % 4 = 0) ∧
    ((mtFrameWrite (-2) [1, 2, 3, 4]).1 =
      (toLe 4 (List.length [1, 2, 3, 4] + 12) ++ toLeSigned 4 (-2) ++ [1, 2, 3, 4] ++
        toLe 4 (crc32 (toLe 4 (List.length [1, 2, 3, 4] + 12) ++ toLeSigned 4 (-2) ++
          [1, 2, 3, 4]))) ++
        fillerCopies (((16 - (List.length [1, 2, 3, 4] + 12) % 16) % 16) / 4) ∧
    (mtFrameWrite (-2) [1, 2, 3, 4]).2 = -2 + 1 ∧
    (mtFrameWrite (-2) [1, 2, 3, 4]).1.length % 16 = 0 ∧
    ∃ tail, mtFrameRead (-2) (fillerCopies 1 ++ ((mtFrameWrite (-2) [1, 2, 3, 4]).1 ++ [6])) =
      some ⟨[1, 2, 3, 4], -2 + 1, tail⟩) :=
  ⟨by decide, c6_frame_roundtrip (-2) [1, 2, 3, 4] 1 [6]
    (by decide) (by decide) (by decide) (by decide) (by decide)⟩

/-! ### Claim C5 -/

/-- C5: the intermediate-frame reader returns the empty result whenever any
check on a (non-padding) record fails — length field outside
`[12, 2^24]` or not a multiple of 4, sequence number different from the
expected counter, or little-endian CRC trailer different from
`crc32(length || seq || payload)`; in particular flipping any bit of a
well-formed frame's payload while keeping its stored CRC, and reading a
frame written at a different sequence number (as after an omitted frame),
each make the read return empty. -/
theorem c5_frame_reader_rejects :
    (∀ (k : Int) (L : Nat) (sB p cB rest : List Nat),
      L < 2 ^ 32 → L ≠ 4 → sB.length = 4 → p.length = L - 12 → cB.length = 4 →
      (¬(12 ≤ L ∧ L ≤ 2 ^ 24) ∨ L % 4 ≠ 0 ∨ fromLeSigned sB ≠ k ∨
        fromLe cB ≠ crc32 (toLe 4 L ++ sB ++ p)) →
      ∃ s tail, mtFrameRead k (toLe 4 L ++ (sB ++ (p ++ (cB ++ rest)))) =
        some ⟨[], s, tail⟩) ∧
    (∀ (k : Int) (p : List Nat) (i j : Nat) (rest : List Nat),
      (∀ b ∈ p, b < 256) → p.length % 4 = 0 → p.length + 12 ≤ 2 ^ 24 →
      i < p.length → j < 8 →
      ∃ s tail, mtFrameRead k
        (toLe 4 (p.length + 12) ++
          (toLeSigned 4 k ++
            (p.set i (p.getD i 0 ^^^ 2 ^ j) ++
              (toLe 4 (crc32 (toLe 4 (p.length + 12) ++ toLeSigned 4 k ++ p)) ++ rest)))) =
        some ⟨[], s, tail⟩) ∧
    (∀ (k k2 : Int) (p : List Nat) (rest : List Nat),
      p.length % 4 = 0 → p.length + 12 ≤ 2 ^ 24 →
      -(2 ^ 31) ≤ k2 → k2 < 2 ^ 31 → k ≠ k2 →
      ∃ s tail, mtFrameRead k ((mtFrameWrite k2 p).1 ++ rest) = some ⟨[], s, tail⟩) := by
  refine ⟨?_, ?_, ?_⟩
  · intro k L sB p cB rest hL hL4 hsB hp hcB hbad
    exact mtFrameRead_reject k L sB p cB rest hL hL4 hsB hp hcB hbad
  · intro k p i j rest hbytes h4 hmax hi hj
    have hL : p.length + 12 < 2 ^ 32 := by norm_num at hmax ⊢; omega
    have hcrclt : crc32 (toLe 4 (p.length + 12) ++ toLeSigned 4 k ++ p) < 256 ^ 4 := by
      have := crc32_lt _ (frame_header_payload_bytes_lt k p (p.length + 12) hbytes)
      norm_num at this ⊢
      omega
    refine mtFrameRead_reject k (p.length + 12) (toLeSigned 4 k)
      (p.set i (p.getD i 0 ^^^ 2 ^ j)) _ rest hL (by omega) (toLeSigned_length 4 k)
      (by rw [List.length_set]; omega) (toLe_length 4 _)
      (Or.inr (Or.inr (Or.inr ?_)))
    rw [fromLe_toLe 4 _ hcrclt]
    exact Ne.symm (crc32_flip_ne (toLe 4 (p.length + 12) ++ toLeSigned 4 k) p i j
      (by
        intro b hb
        rcases List.mem_append.mp hb with hb1 | hb1
        · exact toLe_bytes_lt 4 _ b hb1
        · exact toLeSigned_bytes_lt 4 k b hb1)
      hbytes hi hj)
  · intro k k2 p rest h4 hmax hk1 hk2 hkk
    have hw := mtFrameWrite_bytes k2 p
    simp only [hw, List.append_assoc]
    refine mtFrameRead_reject k (p.length + 12) (toLeSigned 4 k2) p _ _
      (by norm_num at hmax ⊢; omega) (by omega) (toLeSigned_length 4 k2)
      (by omega) (toLe_length 4 _)
      (Or.inr (Or.inr (Or.inl ?_)))
    rw [fromLeSigned_toLeSigned4 k2 hk1 hk2]
    exact Ne.symm hkk

/-- C5 witness: a record with length field 13 (not a multiple of 4) is
rejected; flipping bit 0 of byte 0 of a written `00 00 00 00` payload is
rejected on CRC; a frame written at sequence 1 is rejected by a reader
expecting sequence 0. -/
theorem c5_frame_reader_rejects_witness :
    (∃ s tail, mtFrameRead 0 (toLe 4 13 ++ ([0, 0, 0, 0] ++ ([0] ++ ([0, 0, 0, 0] ++ [])))) =
      some ⟨[], s, tail⟩) ∧
    (∃ s tail, mtFrameRead 0
        (toLe 4 (List.length [0, 0, 0, 0] + 12) ++
          (toLeSigned 4 0 ++
            (List.set [0, 0, 0, 0] 0 (List.getD [0, 0, 0, 0] 0 0 ^^^ 2 ^ 0) ++
              (toLe 4 (crc32 (toLe 4 (List.length [0, 0, 0, 0] + 12) ++ toLeSigned 4 0 ++
                [0, 0, 0, 0])) ++ [])))) =
      some ⟨[], s, tail⟩) ∧
    (∃ s tail, mtFrameRead 0 ((mtFrameWrite 1 [0, 0, 0, 0]).1 ++ []) = some ⟨[], s, tail⟩) :=
  ⟨c5_frame_reader_rejects.1 0 13 [0, 0, 0, 0] [0] [0, 0, 0, 0] []
      (by decide) (by decide) (by decide) (by decide) (by decide) (by decide),
   c5_frame_reader_rejects.2.1 0 [0, 0, 0, 0] 0 0 []
      (by decide) (by decide) (by decide) (by decide) (by decide),
   c5_frame_reader_rejects.2.2 0 1 [0, 0, 0, 0] []
      (by decide) (by decide) (by decide) (by decide) (by decide)⟩
